import Mathlib

set_option linter.unusedVariables false

/-!
Shallow embedding of `src/circuits/core.py` (the `circuits` event core).

The Python classes `Event`, `Manager` and `BaseComponent` are translated to
Lean structures; the mutating methods `_add`, `_remove`, `push`, `flush`,
`send` and the address-resolution method `handlers` become pure state-passing
functions on the `Manager` structure.  A Python handler is an annotated
callable; here it is a record carrying the annotation fields (`type`,
`target`, `channels`, `_passEvent`) together with a fixed observable
behaviour (the value it returns or the exception it raises, and the entries
it pushes onto the root queue while running), which is what the dispatch
loop of `Manager.send` observes.

`Manager._channels` is a `defaultdict(list)`; it is modelled as an
association list so that the key-materialisation side effect of `d[k]`
lookups is visible.  `Manager._handlers` and `Manager._components` are
Python sets; they are modelled as duplicate-free lists (insertion order is
irrelevant to every property proved below).
-/

/-- Handler kind: the `type` annotation, `"filter"` or `"listener"`. -/
inductive HType where
  | filter
  | listener
deriving DecidableEq

/-- A Python value as observed by the dispatch loop: the loop only inspects
identity with `None` and truthiness, except for the components of an
exception triple stored in an `Error` event's `args`.  Exceptions are
identified by a natural number tag. -/
inductive Val where
  | vNone
  | vBool (b : Bool)
  | vStr (s : String)
  | vExcT (e : Nat)
  | vExcV (e : Nat)
  | vExcTb (e : Nat)
deriving DecidableEq

/-- Python truthiness of a `Val` (`None` and `False` and `""` are falsy). -/
def Val.truthy : Val → Bool
  | .vNone => false
  | .vBool b => b
  | .vStr s => !(s = "")
  | .vExcT _ => true
  | .vExcV _ => true
  | .vExcTb _ => true

/-- `circuits.core.Event`: name, positional args, keyword args, and the
`channel`/`target` fields stamped at dispatch time. -/
structure Event where
  name : String
  args : List Val
  kwargs : List (String × Val)
  channel : Option String
  target : Option String
deriving DecidableEq

/-- One pending entry of the root queue: the tuple `(event, channel, target)`
appended by `Manager.push`. -/
structure Entry where
  event : Event
  channel : String
  target : Option String
deriving DecidableEq

/-- Outcome of invoking a handler: it returns a value or raises. -/
inductive HRes where
  | ok (v : Val)
  | exc (e : Nat)
deriving DecidableEq

/-- A handler: a callable with the fields attached by the `listener`
decorator (`type`, `target`, `channels`, `_passEvent`), an identity `id`
(distinct Python callables are distinct objects), and its observable
behaviour when invoked: the entries it pushes while running and its
result. -/
structure Handler where
  id : Nat
  type : HType
  target : Option String
  channels : List String
  passEvent : Bool
  pushes : List Entry
  res : HRes
deriving DecidableEq

/-- State of a root `circuits.core.Manager`: the pending queue `_queue`
(front at the head, `deque.append` at the tail), the registered-handler set
`_handlers`, the channel index `_channels` (a `defaultdict(list)` keyed by
channel-address strings), and the attached-component set `_components`
(components identified by a tag). -/
structure Manager where
  queue : List Entry
  handlers : List Handler
  channels : List (String × List Handler)
  components : List Nat
deriving DecidableEq

/-- The state `Manager.__init__` produces. -/
def emptyManager : Manager := ⟨[], [], [], []⟩

/-! ### String helpers (Python `split(":", 1)`, `startswith`, `endswith`) -/

/-- Split a character list at its first `':'`. -/
def splitColonAux : List Char → Option (List Char × List Char)
  | [] => none
  | c :: cs =>
    if c = ':' then some ([], cs)
    else
      match splitColonAux cs with
      | some (a, b) => some (c :: a, b)
      | none => none

/-- Python `s.split(":", 1)` when `":" in s`: the part before the first
colon and the part after it. -/
def strSplitColon (s : String) : Option (String × String) :=
  match splitColonAux s.data with
  | some (a, b) => some (⟨a⟩, ⟨b⟩)
  | none => none

/-- Python `":" in s`. -/
def strContainsColon (s : String) : Bool := s.data.contains ':'

/-- Python `s.startswith(p)`. -/
def strStarts (s p : String) : Bool := List.isPrefixOf p.data s.data

/-- Python `s.endswith(p)`. -/
def strEnds (s p : String) : Bool := List.isSuffixOf p.data s.data

/-- Python `"%s" % x` for an optional string (`None` prints as `"None"`). -/
def pyStr : Option String → String
  | some t => t
  | none => "None"

/-- Python truthiness of the `target` variable in `Manager.handlers` /
`Manager.send` (`None` and `""` are falsy). -/
def targetTruthy : Option String → Bool
  | some t => !(t = "")
  | none => false

/-! ### The channel index (`defaultdict(list)`) -/

/-- Bucket lookup: the list stored under `k`, `[]` when the key is absent
(the `defaultdict` default). -/
def assocGet (l : List (String × List Handler)) (k : String) : List Handler :=
  match l with
  | [] => []
  | p :: rest => if p.1 = k then p.2 else assocGet rest k

/-- Python `k in d`. -/
def hasKeyL : List (String × List Handler) → String → Bool
  | [], _ => false
  | p :: rest, k => if p.1 = k then true else hasKeyL rest k

/-- Store `v` under `k` (replace the existing entry, else append). -/
def assocSet (l : List (String × List Handler)) (k : String) (v : List Handler) :
    List (String × List Handler) :=
  match l with
  | [] => [(k, v)]
  | p :: rest => if p.1 = k then (k, v) :: rest else p :: assocSet rest k v

/-- The side effect of a `defaultdict` lookup `d[k]`: materialise an empty
bucket under `k` when the key is absent. -/
def touchL (l : List (String × List Handler)) (k : String) :
    List (String × List Handler) :=
  if hasKeyL l k then l else l ++ [(k, [])]

/-- Materialise key `k` in the manager's channel index. -/
def Manager.touch (m : Manager) (k : String) : Manager :=
  { m with channels := touchL m.channels k }

/-- Erase `h` from the bucket stored under `k` (first occurrence, like
Python `list.remove` guarded by `in`). -/
def eraseAt (l : List (String × List Handler)) (k : String) (h : Handler) :
    List (String × List Handler) :=
  l.map (fun p => if p.1 = k then (p.1, p.2.erase h) else p)

/-- `True` on filter descriptors. -/
def isFilterH (h : Handler) : Bool :=
  match h.type with
  | .filter => true
  | .listener => false

/-- `True` on listener descriptors. -/
def isListenerH (h : Handler) : Bool :=
  match h.type with
  | .filter => false
  | .listener => true

/-- `bucket.sort(key=lambda x: x.type)` from `Manager._add`: Python's sort
is stable and the key takes the two values `"filter" < "listener"`, so the
result is exactly the filters in original order followed by the listeners
in original order. -/
def sortByType (l : List Handler) : List Handler :=
  l.filter isFilterH ++ l.filter isListenerH

/-! ### `Manager._add` / `Manager._remove` / `Manager.push` -/

/-- `Manager._add(handler, channel=None)`.  The `InvalidHandler` guard
(`type not in ["filter", "listener"]`) is vacuous here because `HType` has
exactly those two values.  Adds to the `_handlers` set, then appends to the
bucket (if not already present) and re-sorts it, defaulting the channel to
`"*"`. -/
def mAdd (m : Manager) (handler : Handler) (channel : Option String) : Manager :=
  let m1 : Manager :=
    if m.handlers.contains handler then m
    else { m with handlers := m.handlers ++ [handler] }
  let ch := channel.getD "*"
  if hasKeyL m1.channels ch then
    if (assocGet m1.channels ch).contains handler then m1
    else { m1 with
            channels := assocSet m1.channels ch
              (sortByType (assocGet m1.channels ch ++ [handler])) }
  else
    { m1 with channels := m1.channels ++ [(ch, [handler])] }

/-- `Manager._remove(handler, channel=None)`.  With `channel=None`: the
membership test on `self.channels["*"]` materialises `"*"`, the handler is
removed from the `"*"` bucket, from the `_handlers` set, and then from
every bucket of the index (so the `"*"` bucket is processed twice).  With
an explicit channel: the guarded membership test materialises the key, the
handler is removed from the `_handlers` set and from the named bucket
only. -/
def mRemove (m : Manager) (handler : Handler) (channel : Option String) : Manager :=
  match channel with
  | none =>
    let chs0 := touchL m.channels "*"
    let chs1 := eraseAt chs0 "*" handler
    let hs := m.handlers.erase handler
    let chs2 := chs1.map (fun p => (p.1, p.2.erase handler))
    { m with handlers := hs, channels := chs2 }
  | some ch =>
    let chs0 := touchL m.channels ch
    let hs := m.handlers.erase handler
    { m with handlers := hs, channels := eraseAt chs0 ch handler }

/-- `Manager.push(event, channel, target=None)` on the root manager:
append `(event, channel, target)` to the queue. -/
def mPush (m : Manager) (event : Event) (channel : String) (target : Option String) :
    Manager :=
  { m with queue := m.queue ++ [⟨event, channel, target⟩] }

/-! ### `Manager.handlers(s)`: address resolution -/

/-- `Manager.handlers(s)`.  Returns the resolved sequence together with the
post-state of the manager, because the `defaultdict` lookups
`channels["*"]` and `channels[s]` materialise absent keys.  Mirrors the
source branch by branch, including the Python quirks: when the key has no
colon the `target` variable is `None`, so in the `channel == "*"` branch
the computed prefix is the string `"None:"`, and the `"*:%s" % channel`
membership test runs for every non-wildcard channel regardless of the
target. -/
def handlersRes (m : Manager) (s : String) : List Handler × Manager :=
  if s = "*:*" then (m.handlers, m)
  else
    let tc : Option String × String :=
      match strSplitColon s with
      | some (t, c) => (some t, c)
      | none => (none, s)
    let target := tc.1
    let channel := tc.2
    let m1 := m.touch "*"
    let globals := assocGet m1.channels "*"
    if target = some "*" then
      let suf := ":" ++ channel
      let sel := m1.channels.filter (fun p => decide (p.1 = channel) || strEnds p.1 suf)
      (globals ++ (sel.map (fun p => p.2)).flatten, m1)
    else if channel = "*" then
      let pre := pyStr target ++ ":"
      let sel := m1.channels.filter (fun p => strStarts p.1 pre || !(strContainsColon p.1))
      (globals ++ (sel.map (fun p => p.2)).flatten, m1)
    else
      let h1 := globals
      let h2 := if hasKeyL m1.channels channel
                then h1 ++ assocGet m1.channels channel else h1
      let h3 := if targetTruthy target && hasKeyL m1.channels (pyStr target ++ ":*")
                then h2 ++ assocGet m1.channels (pyStr target ++ ":*") else h2
      let h4 := if hasKeyL m1.channels ("*:" ++ channel)
                then h3 ++ assocGet m1.channels ("*:" ++ channel) else h3
      if targetTruthy target then
        let m2 := m1.touch s
        (h4 ++ assocGet m2.channels s, m2)
      else (h4, m1)

/-! ### `Manager.send` and `Manager.flush` -/

/-- The `Error(*exc_info())` event pushed by `send` when a handler raises:
name `"Error"`, args the exception triple `(type, value, traceback)`. -/
def errorEvent (e : Nat) : Event :=
  { name := "Error", args := [.vExcT e, .vExcV e, .vExcTb e], kwargs := [],
    channel := none, target := none }

/-- The queue entry produced by `self.push(Error(*exc_info()), "error")`. -/
def errorEntry (e : Nat) : Entry := ⟨errorEvent e, "error", none⟩

deriving instance DecidableEq for Except

/-- Result of the dispatch loop of `Manager.send`: the handlers it actually
invoked, the outcome (`.ok r` = `return r`, `.error e` = the re-raised
exception when `errors` is set), and the manager state after all pushes. -/
structure SendRes where
  invoked : List Handler
  result : Except Nat Val
  state : Manager
deriving DecidableEq

/-- The `for handler in self.handlers(channel)` loop of `Manager.send`.
`r` is the running return value (initially `False`).  A handler's own
pushes land on the queue, then: on a normal return `r` is updated and the
filter short-circuit check runs on the new value; on a raise an `Error`
entry is pushed when `log`, the exception is re-raised when `errors`, and
otherwise the loop falls through to the short-circuit check with `r` still
holding the previous handler's value (the assignment to `r` did not
happen). -/
def sendLoop (errors log : Bool) : List Handler → Val → Manager → SendRes
  | [], r, m => ⟨[], .ok r, m⟩
  | h :: rest, r, m =>
    let m1 : Manager := { m with queue := m.queue ++ h.pushes }
    match h.res with
    | .ok v =>
      if v ≠ Val.vNone ∧ v.truthy ∧ h.type = HType.filter then ⟨[h], .ok v, m1⟩
      else
        let out := sendLoop errors log rest v m1
        ⟨h :: out.invoked, out.result, out.state⟩
    | .exc e =>
      let m2 : Manager := if log then { m1 with queue := m1.queue ++ [errorEntry e] } else m1
      if errors then ⟨[h], .error e, m2⟩
      else if r ≠ Val.vNone ∧ r.truthy ∧ h.type = HType.filter then ⟨[h], .ok r, m2⟩
      else
        let out := sendLoop errors log rest r m2
        ⟨h :: out.invoked, out.result, out.state⟩

/-- `Manager.send(event, channel, target=None, errors=False, log=True)` on
the root manager: build the lookup key (`"%s:%s" % (target, channel)` when
a target is given), resolve the handler sequence, and run the dispatch
loop with `r` initialised to `False`.  (The stamping of `event.channel`
and `event.target` mutates only the event object, which the loop's
modelled behaviour does not read.) -/
def mSend (m : Manager) (event : Event) (channel : String) (target : Option String)
    (errors log : Bool) : SendRes :=
  let key := match target with
             | some t => t ++ ":" ++ channel
             | none => channel
  let hm := handlersRes m key
  sendLoop errors log hm.1 (Val.vBool false) hm.2

/-- The `while q:` loop of `Manager.flush` over the swapped-out queue,
given in pop order (`deque.pop` takes the newest entry first).  Returns the
trace of entries handed to `send` in order, and the final state. -/
def flushSeq : List Entry → Manager → List Entry × Manager
  | [], m => ([], m)
  | en :: rest, m =>
    let out := mSend m en.event en.channel en.target false true
    let tm := flushSeq rest out.state
    (en :: tm.1, tm.2)

/-- `Manager.flush()` on the root manager: swap `_queue` for a fresh empty
deque and dispatch each swapped-out entry via `send`, newest first. -/
def mFlush (m : Manager) : List Entry × Manager :=
  flushSeq m.queue.reverse { m with queue := [] }

/-! ### Components: `BaseComponent.register` / `unregister`, `Manager.__add__` -/

/-- A `BaseComponent` as seen by attach/detach: its identity tag, its
`channel` attribute, the annotated methods `getmembers` discovers
(`methods`), the contents of its own `_handlers` set (`tracked`: filled by
the self-registration in `__init__`, used by `unregister`), and whether the
concrete component exposes a `registered` hook. -/
structure Component where
  cid : Nat
  channel : Option String
  methods : List Handler
  tracked : List Handler
  hasRegisteredHook : Bool
deriving DecidableEq

/-- The bucket keys `BaseComponent.register` computes for one handler: one
key per declared channel (`["*"]` when the declaration is empty); when the
component's `channel` attribute is set the key is prefixed with
`handler.target or component.channel` and a colon, otherwise the bare
channel is used (a handler's own `target` is ignored in that case). -/
def handlerKeys (c : Component) (h : Handler) : List String :=
  let chans := if h.channels.isEmpty then ["*"] else h.channels
  chans.map (fun ch =>
    match c.channel with
    | some cc => (h.target.getD cc) ++ ":" ++ ch
    | none => ch)

/-- The `(handler, key)` pairs `BaseComponent.register` passes to
`manager._add`, in source order. -/
def registerPairs (c : Component) : List (Handler × String) :=
  c.methods.flatMap (fun h => (handlerKeys c h).map (fun k => (h, k)))

/-- The effect of `BaseComponent.register(manager)` on the parent manager:
each `(handler, key)` pair is added via `_add`, then the component is added
to the parent's `_components` set.  (The component's own `manager`
back-reference is also set; it is not part of the parent's state.) -/
def registerEffect (c : Component) (m : Manager) : Manager :=
  let m1 := (registerPairs c).foldl (fun m p => mAdd m p.1 (some p.2)) m
  { m1 with components :=
      if m1.components.contains c.cid then m1.components
      else m1.components ++ [c.cid] }

/-- The effect of `BaseComponent.unregister()` on the parent manager: every
handler in the component's `_handlers` set is removed via
`_remove(handler)` (no channel, so from every bucket and from the parent's
`_handlers` set), then the component leaves the parent's `_components`
set. -/
def unregisterEffect (c : Component) (m : Manager) : Manager :=
  let m1 := c.tracked.foldl (fun m h => mRemove m h none) m
  { m1 with components := m1.components.erase c.cid }

/-- One observable step of the attach machinery, used to state in which
order `register` and the `+` operator act. -/
inductive AttachStep where
  | addHandler (h : Handler) (key : String)
  | setManagerBackref (cid : Nat)
  | addComponent (cid : Nat)
  | callRegistered (cid : Nat)
deriving DecidableEq

/-- The sequence of steps `BaseComponent.register(manager)` performs, in
source order: the `_add` calls, then `self.manager = manager`, then
`manager._components.add(self)`.  `register` itself never invokes the
`registered` hook. -/
def registerActions (c : Component) : List AttachStep :=
  (registerPairs c).map (fun p => AttachStep.addHandler p.1 p.2)
    ++ [AttachStep.setManagerBackref c.cid, AttachStep.addComponent c.cid]

/-- The sequence of steps `Manager.__add__` / `__iadd__` (`manager + c`,
`manager += c`) performs: `c.register(self.manager)`, then — if the
component exposes a `registered` hook — `c.registered()`. -/
def plusOpActions (c : Component) : List AttachStep :=
  registerActions c ++ (if c.hasRegisteredHook then [AttachStep.callRegistered c.cid] else [])

/-! ### Operation sequences over the handler index (for the bucket invariant) -/

/-- A registration or removal step on a manager. -/
inductive MOp where
  | add (h : Handler) (ch : Option String)
  | rem (h : Handler) (ch : Option String)
deriving DecidableEq

/-- Apply one step (`_add` or `_remove`). -/
def applyOp (m : Manager) : MOp → Manager
  | .add h ch => mAdd m h ch
  | .rem h ch => mRemove m h ch

/-- Apply a sequence of steps to a fresh manager. -/
def applyOps (ops : List MOp) : Manager :=
  ops.foldl applyOp emptyManager

/-- Spec-side reading of the bucket invariant (modelled from the spec's
words, for comparison with the code): the bucket under key `k` kept as a
pair (filters in insertion order, listeners in insertion order).  An `add`
appends to the matching side when the handler is new to the bucket; a
`rem` with no channel erases from every bucket, with a channel only from
the named one. -/
def specBucketStep (k : String) (p : List Handler × List Handler) :
    MOp → List Handler × List Handler
  | .add h ch =>
    if ch.getD "*" = k then
      if h ∈ p.1 ++ p.2 then p
      else
        match h.type with
        | .filter => (p.1 ++ [h], p.2)
        | .listener => (p.1, p.2 ++ [h])
    else p
  | .rem h ch =>
    match ch with
    | none => (p.1.erase h, p.2.erase h)
    | some c => if c = k then (p.1.erase h, p.2.erase h) else p

/-- The spec-side bucket contents after a sequence of steps. -/
def specBuckets (ops : List MOp) (k : String) : List Handler × List Handler :=
  ops.foldl (specBucketStep k) ([], [])

/-! ### Basic lemmas about the association-list index -/

theorem hasKeyL_false_assocGet {l : List (String × List Handler)} {k : String}
    (h : hasKeyL l k = false) : assocGet l k = [] := by
  induction l with
  | nil => rfl
  | cons p rest ih =>
    simp only [hasKeyL] at h
    by_cases hp : p.1 = k
    · simp [hp] at h
    · simp only [assocGet, hp, if_false]
      exact ih (by simpa [hp] using h)

theorem hasKeyL_append (l1 l2 : List (String × List Handler)) (k : String) :
    hasKeyL (l1 ++ l2) k = (hasKeyL l1 k || hasKeyL l2 k) := by
  induction l1 with
  | nil => simp [hasKeyL]
  | cons p rest ih =>
    by_cases hp : p.1 = k
    · simp [hasKeyL, hp]
    · simp only [List.cons_append, hasKeyL, hp, if_false]
      exact ih

theorem assocGet_append (l1 l2 : List (String × List Handler)) (k : String) :
    assocGet (l1 ++ l2) k = if hasKeyL l1 k then assocGet l1 k else assocGet l2 k := by
  induction l1 with
  | nil => simp [hasKeyL, assocGet]
  | cons p rest ih =>
    by_cases hp : p.1 = k
    · simp [assocGet, hasKeyL, hp]
    · simp only [List.cons_append, assocGet, hasKeyL, hp, if_false]
      exact ih

theorem assocGet_touchL (l : List (String × List Handler)) (j k : String) :
    assocGet (touchL l j) k = assocGet l k := by
  unfold touchL
  by_cases hj : hasKeyL l j
  · simp [hj]
  · simp only [hj, Bool.false_eq_true, if_false]
    rw [assocGet_append]
    by_cases hk : hasKeyL l k
    · simp [hk]
    · have h0 : assocGet l k = [] := hasKeyL_false_assocGet (by simpa using hk)
      simp only [hk, Bool.false_eq_true, if_false, h0, assocGet]
      by_cases hjk : j = k <;> simp [hjk]

theorem hasKeyL_touchL_self (l : List (String × List Handler)) (j : String) :
    hasKeyL (touchL l j) j = true := by
  unfold touchL
  by_cases hj : hasKeyL l j
  · simp [hj]
  · simp [hj, hasKeyL_append, hasKeyL]

theorem hasKeyL_touchL_mono {l : List (String × List Handler)} {k : String}
    (j : String) (h : hasKeyL l k = true) : hasKeyL (touchL l j) k = true := by
  unfold touchL
  by_cases hj : hasKeyL l j
  · simpa [hj]
  · simp [hj, hasKeyL_append, h]

theorem assocGet_eraseAt (l : List (String × List Handler)) (c k : String) (h : Handler) :
    assocGet (eraseAt l c h) k =
      if k = c then (assocGet l k).erase h else assocGet l k := by
  induction l with
  | nil => by_cases hkc : k = c <;> simp [eraseAt, assocGet, hkc]
  | cons p rest ih =>
    simp only [eraseAt, List.map_cons]
    by_cases hpc : p.1 = c
    · by_cases hpk : p.1 = k
      · have hkc : k = c := by rw [← hpk, hpc]
        simp [assocGet, hpc, hpk, hkc]
      · have hck : ¬ c = k := fun hh => hpk (hpc.trans hh)
        rw [if_pos hpc]
        simp only [assocGet, hck, if_false, hpk]
        simpa [eraseAt] using ih
    · by_cases hpk : p.1 = k
      · have hkc : ¬ k = c := by rw [← hpk]; exact hpc
        simp [assocGet, hpc, hpk, hkc]
      · simp only [hpc, if_false, assocGet, hpk]
        simpa [eraseAt] using ih

theorem assocGet_mapErase (l : List (String × List Handler)) (k : String) (h : Handler) :
    assocGet (l.map (fun p => (p.1, p.2.erase h))) k = (assocGet l k).erase h := by
  induction l with
  | nil => simp [assocGet]
  | cons p rest ih =>
    simp only [List.map_cons, assocGet]
    by_cases hpk : p.1 = k
    · simp [hpk]
    · simp only [hpk, if_false]
      exact ih

theorem assocGet_assocSet (l : List (String × List Handler)) (j : String)
    (v : List Handler) (k : String) :
    assocGet (assocSet l j v) k = if k = j then v else assocGet l k := by
  induction l with
  | nil =>
    by_cases hkj : k = j
    · simp [assocSet, assocGet, hkj]
    · simp [assocSet, assocGet, hkj, show ¬ j = k from fun hh => hkj hh.symm]
  | cons p rest ih =>
    simp only [assocSet]
    by_cases hpj : p.1 = j
    · by_cases hkj : k = j
      · simp [assocGet, hpj, hkj]
      · have hjk : ¬ j = k := fun hh => hkj hh.symm
        have hpk : ¬ p.1 = k := by rw [hpj]; exact hjk
        simp [assocGet, hpj, hjk, hpk, hkj]
    · by_cases hpk : p.1 = k
      · have hkj : ¬ k = j := by rw [← hpk]; exact hpj
        simp [assocGet, hpj, hpk, hkj]
      · simp only [hpj, if_false, assocGet, hpk]
        exact ih

/-! ### What `Manager._remove` does to each part of the state -/

theorem mRemove_some_handlers (m : Manager) (h : Handler) (c : String) :
    (mRemove m h (some c)).handlers = m.handlers.erase h := rfl

theorem mRemove_none_handlers (m : Manager) (h : Handler) :
    (mRemove m h none).handlers = m.handlers.erase h := rfl

theorem mRemove_some_assocGet (m : Manager) (h : Handler) (c k : String) :
    assocGet (mRemove m h (some c)).channels k =
      if k = c then (assocGet m.channels k).erase h else assocGet m.channels k := by
  show assocGet (eraseAt (touchL m.channels c) c h) k = _
  rw [assocGet_eraseAt, assocGet_touchL]

theorem mRemove_none_assocGet (m : Manager) (h : Handler) (k : String) :
    assocGet (mRemove m h none).channels k =
      if k = "*" then ((assocGet m.channels k).erase h).erase h
      else (assocGet m.channels k).erase h := by
  show assocGet ((eraseAt (touchL m.channels "*") "*" h).map
      (fun p => (p.1, p.2.erase h))) k = _
  rw [assocGet_mapErase, assocGet_eraseAt, assocGet_touchL]
  by_cases hk : k = "*" <;> simp [hk]

theorem mRemove_queue (m : Manager) (h : Handler) (ch : Option String) :
    (mRemove m h ch).queue = m.queue := by
  cases ch <;> rfl

theorem not_mem_assocGet_of_forall {l : List (String × List Handler)} {h : Handler}
    (hall : ∀ p ∈ l, h ∉ p.2) (k : String) : h ∉ assocGet l k := by
  induction l with
  | nil => simp [assocGet]
  | cons p rest ih =>
    simp only [assocGet]
    by_cases hp : p.1 = k
    · simpa [hp] using hall p (by simp)
    · simp only [hp, if_false]
      exact ih (fun q hq => hall q (by simp [hq]))

/-! ### Concrete fixtures used by counterexamples and witnesses -/

/-- A plain listener with identity `n` (returns `None`, pushes nothing). -/
def fixL (n : Nat) : Handler := ⟨n, HType.listener, none, [], false, [], HRes.ok Val.vNone⟩

/-- A plain filter with identity `n` (returns `None`, pushes nothing). -/
def fixF (n : Nat) : Handler := ⟨n, HType.filter, none, [], false, [], HRes.ok Val.vNone⟩

/-- A listener with identity `n` returning `True`. -/
def fixLT (n : Nat) : Handler := ⟨n, HType.listener, none, [], false, [], HRes.ok (Val.vBool true)⟩

/-- A filter with identity `n` that raises exception `e`. -/
def fixFX (n e : Nat) : Handler := ⟨n, HType.filter, none, [], false, [], HRes.exc e⟩

/-- An event with no arguments named `E`. -/
def fixEv : Event := ⟨"E", [], [], none, none⟩

/-! ### C2 — `Manager._remove` frame -/

/-- C2 (amended): `_remove` with an explicit channel removes the handler
from the named bucket and also from the `_handlers` set, leaving every
other bucket unchanged; with no channel it removes the handler from the
`_handlers` set and from every bucket (the `"*"` bucket is processed
twice); removing a handler absent from the set and from every bucket
leaves the set and every bucket's contents unchanged. -/
theorem C2_remove_frame (m : Manager) (h : Handler) :
    (∀ c,
      (mRemove m h (some c)).handlers = m.handlers.erase h
      ∧ assocGet (mRemove m h (some c)).channels c = (assocGet m.channels c).erase h
      ∧ ∀ k, k ≠ c → assocGet (mRemove m h (some c)).channels k = assocGet m.channels k)
    ∧ ((mRemove m h none).handlers = m.handlers.erase h
      ∧ ∀ k, assocGet (mRemove m h none).channels k =
          if k = "*" then ((assocGet m.channels k).erase h).erase h
          else (assocGet m.channels k).erase h)
    ∧ ((h ∉ m.handlers ∧ ∀ k, h ∉ assocGet m.channels k) →
        ∀ ch, (mRemove m h ch).handlers = m.handlers
          ∧ ∀ k, assocGet (mRemove m h ch).channels k = assocGet m.channels k) := by
  refine ⟨fun c => ⟨mRemove_some_handlers m h c, ?_, ?_⟩,
    ⟨mRemove_none_handlers m h, fun k => mRemove_none_assocGet m h k⟩, ?_⟩
  · rw [mRemove_some_assocGet]; simp
  · intro k hk
    rw [mRemove_some_assocGet]
    simp [hk]
  · rintro ⟨hh, hb⟩ ch
    have herase : ∀ k, (assocGet m.channels k).erase h = assocGet m.channels k :=
      fun k => List.erase_of_not_mem (hb k)
    cases ch with
    | none =>
      refine ⟨by rw [mRemove_none_handlers, List.erase_of_not_mem hh], fun k => ?_⟩
      rw [mRemove_none_assocGet]
      by_cases hk : k = "*" <;> simp [hk, herase]
    | some c =>
      refine ⟨by rw [mRemove_some_handlers, List.erase_of_not_mem hh], fun k => ?_⟩
      rw [mRemove_some_assocGet]
      by_cases hk : k = c <;> simp [hk, herase]

/-- A manager holding the same handler in buckets `"a"` and `"b"`. -/
def mgrC2 : Manager := mAdd (mAdd emptyManager (fixL 7) (some "a")) (fixL 7) (some "b")

/-- C2 is false as stated: removing a handler from the named bucket `"a"`
also removes it from the `_handlers` set (the set is not unchanged). -/
theorem C2_counterexample :
    (mRemove mgrC2 (fixL 7) (some "a")).handlers ≠ mgrC2.handlers := by decide

/-- Witness for C2 (amended), instantiated at a handler absent from the
manager: the removal is a no-op on the handler set. -/
theorem C2_witness :
    (mRemove mgrC2 (fixL 9) (some "a")).handlers = mgrC2.handlers :=
  ((C2_remove_frame mgrC2 (fixL 9)).2.2
    ⟨by decide, not_mem_assocGet_of_forall (by decide)⟩ (some "a")).1

/-! ### C9 — the `registered` hook -/

/-- A component with a `registered` hook and no handlers. -/
def compC9 : Component := ⟨3, none, [], [], true⟩

/-- C9 is false as stated: `BaseComponent.register` never invokes the
`registered` hook, even on a component that exposes one (the hook is
invoked by `Manager.__add__` / `__iadd__` instead). -/
theorem C9_counterexample :
    compC9.hasRegisteredHook = true
    ∧ AttachStep.callRegistered compC9.cid ∉ registerActions compC9 := by decide

/-- C9 (amended): for a component exposing a `registered` hook, the attach
operator (`manager + component`, i.e. `Manager.__add__`) invokes the hook
with no arguments as its final step, after `register` has set the
component's manager back-reference and added the component to the parent's
component set. -/
theorem C9_hook_after_attach (c : Component) (hk : c.hasRegisteredHook = true) :
    plusOpActions c =
      (registerPairs c).map (fun p => AttachStep.addHandler p.1 p.2)
        ++ [AttachStep.setManagerBackref c.cid, AttachStep.addComponent c.cid,
            AttachStep.callRegistered c.cid] := by
  simp [plusOpActions, registerActions, hk]

/-- Witness for C9 (amended) at a concrete component. -/
theorem C9_witness :
    plusOpActions compC9 =
      [AttachStep.setManagerBackref 3, AttachStep.addComponent 3,
       AttachStep.callRegistered 3] :=
  (C9_hook_after_attach compC9 (by decide)).trans (by decide)

/-! ### Splitting channel addresses -/

theorem splitColonAux_none {l : List Char} (h : l.contains ':' = false) :
    splitColonAux l = none := by
  induction l with
  | nil => rfl
  | cons c cs ih =>
    simp only [List.contains_cons, Bool.or_eq_false_iff] at h
    have hc : ¬ c = ':' := by
      intro hh
      rw [hh] at h
      simpa using h.1
    simp only [splitColonAux, hc, if_false]
    rw [ih h.2]

theorem splitColonAux_concat (a b : List Char) (h : a.contains ':' = false) :
    splitColonAux (a ++ ':' :: b) = some (a, b) := by
  induction a with
  | nil => simp [splitColonAux]
  | cons c cs ih =>
    simp only [List.contains_cons, Bool.or_eq_false_iff] at h
    have hc : ¬ c = ':' := by
      intro hh
      rw [hh] at h
      simpa using h.1
    simp only [List.cons_append, splitColonAux, hc, if_false, List.append_eq]
    rw [ih h.2]

theorem strSplitColon_none {s : String} (h : strContainsColon s = false) :
    strSplitColon s = none := by
  unfold strSplitColon
  rw [splitColonAux_none h]

theorem string_data_append (s t : String) : (s ++ t).data = s.data ++ t.data := rfl

theorem strSplitColon_concat (t c : String) (h : strContainsColon t = false) :
    strSplitColon (t ++ ":" ++ c) = some (t, c) := by
  unfold strSplitColon
  have hd : (t ++ ":" ++ c).data = t.data ++ ':' :: c.data := by
    rw [string_data_append, string_data_append]
    simp
  rw [hd, splitColonAux_concat t.data c.data h]

/-- The guarded chaining in `Manager.handlers`: an `in`-guarded bucket
append is the same as unconditionally appending the (defaultdict) bucket
contents, because an absent bucket contributes `[]`. -/
theorem chain_get (l : List (String × List Handler)) (k : String) (x : List Handler) :
    (if hasKeyL l k then x ++ assocGet l k else x) = x ++ assocGet l k := by
  by_cases h : hasKeyL l k
  · simp [h]
  · simp [h, hasKeyL_false_assocGet (by simpa using h)]

/-- Variant of `chain_get` where the membership test runs on the index
after `"*"` has been materialised. -/
theorem chain_get_touch (l : List (String × List Handler)) (j k : String) (x : List Handler) :
    (if hasKeyL (touchL l j) k then x ++ assocGet l k else x) = x ++ assocGet l k := by
  by_cases h : hasKeyL (touchL l j) k
  · simp [h]
  · have hk : hasKeyL l k = false := by
      cases hkk : hasKeyL l k
      · rfl
      · exact absurd (hasKeyL_touchL_mono j hkk) h
    simp [h, hasKeyL_false_assocGet hk]

/-! ### C1 — address resolution for colon-free keys -/

/-- C1 (amended): for a lookup key `k` with no colon and `k ≠ "*"`,
`Manager.handlers(k)` returns exactly globals (`bucket["*"]`), then
`bucket[k]`, then `bucket["*:" ++ k]`, each bucket contributing its
internal order and absent buckets contributing nothing.  (The claim's
original form is false: the `"*:" ++ k` bucket also contributes, and for
`k = "*"` the wildcard-channel branch returns every colon-free bucket
instead.) -/
theorem C1_handlers_no_colon (m : Manager) (k : String)
    (hnc : strContainsColon k = false) (hne : k ≠ "*") :
    (handlersRes m k).1 =
      assocGet m.channels "*" ++ assocGet m.channels k
        ++ assocGet m.channels ("*:" ++ k) := by
  have hss : k ≠ "*:*" := by
    intro hh
    rw [hh] at hnc
    exact absurd hnc (by decide)
  unfold handlersRes
  rw [if_neg hss, strSplitColon_none hnc]
  simp only [Manager.touch, targetTruthy, chain_get_touch, assocGet_touchL, hne, if_false,
    Bool.false_and, reduceCtorEq]

/-- A manager with a handler in each of the buckets `"*"`, `"*:c"` and
`"d"`, built by `_add`. -/
def mgrC1 : Manager :=
  mAdd (mAdd (mAdd emptyManager (fixL 0) (some "*")) (fixL 1) (some "*:c")) (fixL 2) (some "d")

/-- C1 is false as stated: for the colon-free key `"c"` the resolved
sequence is not globals followed by `bucket["c"]` (the handler registered
under `"*:c"` is also yielded), and for the key `"*"` it is not globals
followed by `bucket["*"]` (the handler registered under the unrelated
colon-free key `"d"` is also yielded). -/
theorem C1_counterexample :
    (handlersRes mgrC1 "c").1 ≠
      assocGet mgrC1.channels "*" ++ assocGet mgrC1.channels "c"
    ∧ (handlersRes mgrC1 "*").1 ≠
      assocGet mgrC1.channels "*" ++ assocGet mgrC1.channels "*" := by decide

/-- Witness for C1 (amended) at the concrete key `"c"`. -/
theorem C1_witness :
    (handlersRes mgrC1 "c").1 =
      assocGet mgrC1.channels "*" ++ assocGet mgrC1.channels "c"
        ++ assocGet mgrC1.channels ("*:" ++ "c") :=
  C1_handlers_no_colon mgrC1 "c" (by decide) (by decide)

/-! ### C6 — address resolution for fully targeted keys -/

/-- C6 (amended): for a lookup key `t:c` with `t` nonempty, `t ≠ "*"` and
`c ≠ "*"` (`t` the part before the first colon), `Manager.handlers`
returns the concatenation, in this order, of globals (`bucket["*"]`),
`bucket[c]`, `bucket[t:*]`, `bucket[*:c]` and `bucket[t:c]`, each
contributing its bucket-internal order and absent buckets contributing
nothing.  (The original claim is false for an empty target `t = ""`: the
Python truthiness test `if target` then skips `bucket[t:*]` and
`bucket[t:c]`.) -/
theorem C6_handlers_targeted (m : Manager) (t c : String)
    (htc : strContainsColon t = false) (ht0 : t ≠ "") (hts : t ≠ "*") (hcs : c ≠ "*") :
    (handlersRes m (t ++ ":" ++ c)).1 =
      assocGet m.channels "*" ++ assocGet m.channels c
        ++ assocGet m.channels (t ++ ":*") ++ assocGet m.channels ("*:" ++ c)
        ++ assocGet m.channels (t ++ ":" ++ c) := by
  have hsplit := strSplitColon_concat t c htc
  have hss : t ++ ":" ++ c ≠ "*:*" := by
    intro hh
    rw [hh] at hsplit
    have h2 : strSplitColon "*:*" = some ("*", "*") := by decide
    have h3 := h2.symm.trans hsplit
    simp only [Option.some.injEq, Prod.mk.injEq] at h3
    exact hts h3.1.symm
  unfold handlersRes
  rw [if_neg hss, hsplit]
  simp only [Manager.touch, targetTruthy, pyStr, chain_get_touch, assocGet_touchL,
    hcs, if_false, Option.some.injEq, hts, ht0, Bool.not_false, Bool.true_and,
    decide_False, if_true]

/-- A manager with a handler registered under the empty-target key `":c"`. -/
def mgrC6 : Manager := mAdd emptyManager (fixL 5) (some ":c")

/-- C6 is false as stated at the key `":c"` (target `""`, channel `"c"`):
the bucket stored under `":c"` itself contributes nothing, because the
empty target is falsy in Python. -/
theorem C6_counterexample :
    (handlersRes mgrC6 ":c").1 ≠
      assocGet mgrC6.channels "*" ++ assocGet mgrC6.channels "c"
        ++ assocGet mgrC6.channels ":*" ++ assocGet mgrC6.channels "*:c"
        ++ assocGet mgrC6.channels ":c" := by decide

/-- A manager populated in all five buckets relevant to the key `"a:c"`. -/
def mgrC6w : Manager :=
  mAdd (mAdd (mAdd (mAdd (mAdd emptyManager
    (fixL 0) (some "*")) (fixL 1) (some "c")) (fixF 2) (some "a:*"))
    (fixL 3) (some "*:c")) (fixL 4) (some "a:c")

/-- Witness for C6 (amended) at the concrete key `"a:c"`. -/
theorem C6_witness :
    (handlersRes mgrC6w ("a" ++ ":" ++ "c")).1 =
      assocGet mgrC6w.channels "*" ++ assocGet mgrC6w.channels "c"
        ++ assocGet mgrC6w.channels ("a" ++ ":*") ++ assocGet mgrC6w.channels ("*:" ++ "c")
        ++ assocGet mgrC6w.channels ("a" ++ ":" ++ "c") :=
  C6_handlers_targeted mgrC6w "a" "c" (by decide) (by decide) (by decide) (by decide)

/-! ### C10 — address resolution materialises index keys -/

/-- C10 (amended): `Manager.handlers` is not read-only.  For every lookup
key other than `"*:*"` it materialises an empty bucket under `"*"` (the
`channels["*"]` lookup on the `defaultdict`), and for a key `t:c` whose
target part `t` is nonempty and not `"*"` and whose channel part `c` is
not `"*"`, it also materialises an empty bucket under the full key `t:c`
(the unguarded `channels[s]` lookup).  (As originally stated the claim is
false: for the keys `t:*` and `*:c` the full key is not materialised.) -/
theorem C10_handlers_materialises (m : Manager) (s : String) (hne : s ≠ "*:*") :
    hasKeyL (handlersRes m s).2.channels "*" = true
    ∧ (∀ t c, s = t ++ ":" ++ c → strContainsColon t = false →
        t ≠ "" → t ≠ "*" → c ≠ "*" →
        hasKeyL (handlersRes m s).2.channels s = true) := by
  constructor
  · unfold handlersRes
    rw [if_neg hne]
    simp only [Manager.touch]
    split
    · exact hasKeyL_touchL_self m.channels "*"
    · split
      · exact hasKeyL_touchL_self m.channels "*"
      · split
        · exact hasKeyL_touchL_mono _ (hasKeyL_touchL_self m.channels "*")
        · exact hasKeyL_touchL_self m.channels "*"
  · intro t c hs htc ht0 hts hcs
    subst hs
    have hsplit := strSplitColon_concat t c htc
    unfold handlersRes
    rw [if_neg hne, hsplit]
    simp only [Manager.touch, targetTruthy, pyStr, Option.some.injEq, hts, hcs,
      if_false, ht0, decide_False, Bool.not_false, if_true]
    exact hasKeyL_touchL_self _ _

/-- C10 is false as stated: resolving the key `"a:*"` (whose target `"a"`
is set) on a fresh manager does not materialise a bucket under `"a:*"`. -/
theorem C10_counterexample :
    hasKeyL (handlersRes emptyManager "a:*").2.channels "a:*" = false := by decide

/-- Witness for C10 (amended) at the concrete key `"a:b"` on a fresh
manager: both `"*"` and `"a:b"` are materialised. -/
theorem C10_witness :
    hasKeyL (handlersRes emptyManager "a:b").2.channels "*" = true
    ∧ hasKeyL (handlersRes emptyManager "a:b").2.channels "a:b" = true :=
  ⟨(C10_handlers_materialises emptyManager "a:b" (by decide)).1,
   (C10_handlers_materialises emptyManager "a:b" (by decide)).2 "a" "b"
     (by decide) (by decide) (by decide) (by decide) (by decide)⟩

/-! ### The dispatch loop: queue growth, swallowing, propagation -/

/-- The entries appended to the root queue by one run of the dispatch loop
over the invoked handlers: each handler's own pushes, followed — when the
handler raises and `log` is set — by exactly one `Error` entry carrying
that handler's exception triple on the `"error"` channel. -/
def invokedPushes (log : Bool) (hs : List Handler) : List Entry :=
  hs.flatMap (fun h => h.pushes ++ match h.res with
    | .ok _ => []
    | .exc e => if log then [errorEntry e] else [])

/-- `true` on a normal (non-raising) send outcome. -/
def isOkE : Except Nat Val → Bool
  | .ok _ => true
  | .error _ => false

theorem sendLoop_queue (errors log : Bool) (hs : List Handler) (r : Val) (m : Manager) :
    (sendLoop errors log hs r m).state.queue
      = m.queue ++ invokedPushes log (sendLoop errors log hs r m).invoked := by
  induction hs generalizing r m with
  | nil => simp [sendLoop, invokedPushes]
  | cons h rest ih =>
    cases hres : h.res with
    | ok v =>
      by_cases hc : v ≠ Val.vNone ∧ v.truthy ∧ h.type = HType.filter
      · simp only [sendLoop, hres]
        rw [if_pos hc]
        simp [invokedPushes, hres]
      · simp only [sendLoop, hres]
        rw [if_neg hc]
        rw [ih]
        simp [invokedPushes, hres]
    | exc e =>
      cases errors with
      | true =>
        simp only [sendLoop, hres, if_true]
        cases log <;> simp [invokedPushes, hres]
      | false =>
        by_cases hc : r ≠ Val.vNone ∧ r.truthy ∧ h.type = HType.filter
        · simp only [sendLoop, hres, Bool.false_eq_true, if_false]
          rw [if_pos hc]
          cases log <;> simp [invokedPushes, hres]
        · simp only [sendLoop, hres, Bool.false_eq_true, if_false]
          rw [if_neg hc]
          rw [ih]
          cases log <;> simp [invokedPushes, hres]

theorem sendLoop_false_ok (log : Bool) (hs : List Handler) (r : Val) (m : Manager) :
    isOkE (sendLoop false log hs r m).result = true := by
  induction hs generalizing r m with
  | nil => simp [sendLoop, isOkE]
  | cons h rest ih =>
    cases hres : h.res with
    | ok v =>
      by_cases hc : v ≠ Val.vNone ∧ v.truthy ∧ h.type = HType.filter
      · simp only [sendLoop, hres]
        rw [if_pos hc]
        simp [isOkE]
      · simp only [sendLoop, hres]
        rw [if_neg hc]
        exact ih _ _
    | exc e =>
      by_cases hc : r ≠ Val.vNone ∧ r.truthy ∧ h.type = HType.filter
      · simp only [sendLoop, hres, Bool.false_eq_true, if_false]
        rw [if_pos hc]
        simp [isOkE]
      · simp only [sendLoop, hres, Bool.false_eq_true, if_false]
        rw [if_neg hc]
        exact ih _ _

theorem sendLoop_true_error (log : Bool) (hs : List Handler) (r : Val) (m : Manager)
    (hx : ∃ h ∈ (sendLoop true log hs r m).invoked, ∃ e, h.res = HRes.exc e) :
    isOkE (sendLoop true log hs r m).result = false := by
  induction hs generalizing r m with
  | nil => simp [sendLoop] at hx
  | cons h rest ih =>
    cases hres : h.res with
    | ok v =>
      by_cases hc : v ≠ Val.vNone ∧ v.truthy ∧ h.type = HType.filter
      · rw [sendLoop] at hx ⊢
        simp only [hres] at hx ⊢
        rw [if_pos hc] at hx ⊢
        obtain ⟨h2, hmem, e, he⟩ := hx
        simp only [List.mem_singleton] at hmem
        rw [hmem, hres] at he
        exact absurd he (by simp)
      · rw [sendLoop] at hx ⊢
        simp only [hres] at hx ⊢
        rw [if_neg hc] at hx ⊢
        obtain ⟨h2, hmem, e, he⟩ := hx
        simp only [List.mem_cons] at hmem
        rcases hmem with hmem | hmem
        · rw [hmem, hres] at he
          exact absurd he (by simp)
        · exact ih _ _ ⟨h2, hmem, e, he⟩
    | exc e =>
      rw [sendLoop]
      simp [hres, isOkE]

theorem handlersRes_queue (m : Manager) (s : String) :
    (handlersRes m s).2.queue = m.queue := by
  unfold handlersRes
  split
  · rfl
  · simp only [Manager.touch]
    split
    · rfl
    · split
      · rfl
      · split <;> rfl

theorem mSend_queue (m : Manager) (ev : Event) (ch : String) (tgt : Option String)
    (errors log : Bool) :
    (mSend m ev ch tgt errors log).state.queue
      = m.queue ++ invokedPushes log (mSend m ev ch tgt errors log).invoked := by
  unfold mSend
  rw [sendLoop_queue, handlersRes_queue]

/-! ### C3 — a raising handler and the filter short-circuit -/

/-- The manager state after the `except:` block of `Manager.send` has run
for a raising handler: the handler's own pushes, plus — when `log` — the
`Error` entry for its exception. -/
def excState (log : Bool) (h : Handler) (e : Nat) (m : Manager) : Manager :=
  if log then { m with queue := m.queue ++ h.pushes ++ [errorEntry e] }
  else { m with queue := m.queue ++ h.pushes }

/-- C3 (amended): with `raise_errors = false` a raising handler's exception
is swallowed (the loop's outcome is always a normal return), but the loop
then falls through to the short-circuit check with `r` still holding the
most recent *completed* handler's value: when that stale `r` is truthy and
the raising handler is a filter, dispatch short-circuits and returns `r`,
skipping every later handler; otherwise iteration continues with the next
handler. -/
theorem C3_exc_stale_shortcircuit (log : Bool) (h : Handler) (rest : List Handler)
    (r : Val) (m : Manager) (e : Nat) (hx : h.res = HRes.exc e) :
    ((r ≠ Val.vNone ∧ r.truthy ∧ h.type = HType.filter) →
        sendLoop false log (h :: rest) r m = ⟨[h], Except.ok r, excState log h e m⟩)
    ∧ (¬(r ≠ Val.vNone ∧ r.truthy ∧ h.type = HType.filter) →
        (sendLoop false log (h :: rest) r m).invoked
            = h :: (sendLoop false log rest r (excState log h e m)).invoked
          ∧ (sendLoop false log (h :: rest) r m).result
            = (sendLoop false log rest r (excState log h e m)).result)
    ∧ isOkE (sendLoop false log (h :: rest) r m).result = true := by
  refine ⟨fun hc => ?_, fun hc => ?_, sendLoop_false_ok log (h :: rest) r m⟩
  · rw [sendLoop]
    simp only [hx, Bool.false_eq_true, if_false]
    rw [if_pos hc]
    cases log <;> simp [excState]
  · rw [sendLoop]
    simp only [hx, Bool.false_eq_true, if_false]
    rw [if_neg hc]
    cases log <;> simp [excState]

/-- A manager where resolution for `"x"` yields a truthy listener (from the
global bucket), then a raising filter, then another listener. -/
def mgrC3 : Manager :=
  mAdd (mAdd (mAdd emptyManager (fixLT 0) (some "*")) (fixFX 1 9) (some "x"))
    (fixL 2) (some "x")

/-- C3 is false as stated: with `raise_errors = false`, after the truthy
listener the raising filter is invoked, its exception is swallowed — and
dispatch does *not* continue with the next handler: the stale truthy `r`
triggers the filter short-circuit, the final listener is never invoked,
and `send` returns the stale value `True`. -/
theorem C3_counterexample :
    fixL 2 ∈ (handlersRes mgrC3 "x").1
    ∧ fixL 2 ∉ (mSend mgrC3 fixEv "x" none false true).invoked
    ∧ (mSend mgrC3 fixEv "x" none false true).result = Except.ok (Val.vBool true) := by
  decide

/-- Witness for C3 (amended): a raising filter facing a stale truthy `r`
short-circuits, skipping the rest of the chain. -/
theorem C3_witness :
    sendLoop false true [fixFX 1 9, fixL 2] (Val.vBool true) emptyManager
      = ⟨[fixFX 1 9], Except.ok (Val.vBool true),
          excState true (fixFX 1 9) 9 emptyManager⟩ :=
  (C3_exc_stale_shortcircuit true (fixFX 1 9) [fixL 2] (Val.vBool true)
    emptyManager 9 (by decide)).1 (by decide)

/-! ### C7 — error containment in `Manager.send` -/

/-- C7: on the root manager, (i) the queue after `send` is the queue before
plus, in order, each invoked handler's pushes followed — for each raising
invocation, when `log_errors` — by exactly one `Error` entry carrying that
invocation's exception triple on the `"error"` channel (so it is only
observed at a later flush); (ii) when some invoked handler raised, the
send outcome is exceptional if and only if `raise_errors` was set; (iii)
with `raise_errors` unset, `send` always returns normally. -/
theorem C7_send_error_handling (m : Manager) (ev : Event) (ch : String)
    (tgt : Option String) (errors log : Bool) :
    ((mSend m ev ch tgt errors log).state.queue
        = m.queue ++ invokedPushes log (mSend m ev ch tgt errors log).invoked)
    ∧ ((∃ h ∈ (mSend m ev ch tgt errors log).invoked, ∃ e, h.res = HRes.exc e) →
        (isOkE (mSend m ev ch tgt errors log).result = false ↔ errors = true))
    ∧ (errors = false → isOkE (mSend m ev ch tgt errors log).result = true) := by
  have hok : ∀ lg, isOkE (mSend m ev ch tgt false lg).result = true :=
    fun lg => sendLoop_false_ok lg _ _ _
  refine ⟨mSend_queue m ev ch tgt errors log, fun hx => ?_, fun he => ?_⟩
  · cases errors with
    | false =>
      simp only [Bool.false_eq_true, iff_false]
      intro hh
      rw [hok log] at hh
      exact absurd hh (by simp)
    | true =>
      simp only [iff_true]
      exact sendLoop_true_error log _ _ _ hx
  · subst he
    exact hok log

/-- A manager with one raising listener on channel `"w"`. -/
def mgrC7 : Manager :=
  mAdd emptyManager ⟨1, HType.listener, none, [], false, [], HRes.exc 5⟩ (some "w")

/-- Witness for C7 at a concrete send with a raising handler: the queue
law and the swallowing law, instantiated. -/
theorem C7_witness :
    (mSend mgrC7 fixEv "w" none false true).state.queue
      = mgrC7.queue ++ invokedPushes true (mSend mgrC7 fixEv "w" none false true).invoked
    ∧ isOkE (mSend mgrC7 fixEv "w" none false true).result = true :=
  ⟨(C7_send_error_handling mgrC7 fixEv "w" none false true).1,
   (C7_send_error_handling mgrC7 fixEv "w" none false true).2.2 rfl⟩

/-! ### C4 — flush swaps the queue and dispatches the swapped entries -/

/-- The entries pushed onto the fresh queue while a flush dispatches the
given swapped-out entries, in order: for each `send`, the pushes of its
invoked handlers (including `Error` entries for raising invocations). -/
def flushPushes : List Entry → Manager → List Entry
  | [], _ => []
  | en :: rest, m =>
    let out := mSend m en.event en.channel en.target false true
    invokedPushes true out.invoked ++ flushPushes rest out.state

theorem flushSeq_trace (q : List Entry) (m : Manager) : (flushSeq q m).1 = q := by
  induction q generalizing m with
  | nil => rfl
  | cons en rest ih => simp [flushSeq, ih]

theorem flushSeq_queue (q : List Entry) (m : Manager) :
    (flushSeq q m).2.queue = m.queue ++ flushPushes q m := by
  induction q generalizing m with
  | nil => simp [flushSeq, flushPushes]
  | cons en rest ih =>
    simp only [flushSeq, flushPushes]
    rw [ih, mSend_queue]
    simp

/-- C4: `flush` on the root manager swaps the pending queue for a fresh
empty one and hands each swapped-out entry to `send` exactly once (newest
first, and nothing else is dispatched, whatever the handlers push); the
final queue consists exactly of the entries pushed while the flush was
running, which are therefore only dispatched by a subsequent flush. -/
theorem C4_flush_swap (m : Manager) :
    (mFlush m).1 = m.queue.reverse
    ∧ (mFlush m).2.queue = flushPushes m.queue.reverse { m with queue := [] } := by
  constructor
  · exact flushSeq_trace m.queue.reverse { m with queue := [] }
  · rw [mFlush, flushSeq_queue]
    simp

/-! ### What `Manager._add` does to each part of the state -/

theorem mAdd_handlers (m : Manager) (h : Handler) (ch : Option String) :
    (mAdd m h ch).handlers =
      if h ∈ m.handlers then m.handlers else m.handlers ++ [h] := by
  simp only [mAdd]
  by_cases hmem : h ∈ m.handlers
  · rw [if_pos (List.elem_iff.mpr hmem), if_pos hmem]
    split
    · split <;> rfl
    · rfl
  · rw [if_neg (fun hc => hmem (List.elem_iff.mp hc)), if_neg hmem]
    split
    · split <;> rfl
    · rfl

theorem mAdd_channels (m : Manager) (h : Handler) (ch : Option String) :
    (mAdd m h ch).channels =
      if hasKeyL m.channels (ch.getD "*") then
        (if h ∈ assocGet m.channels (ch.getD "*") then m.channels
         else assocSet m.channels (ch.getD "*")
                (sortByType (assocGet m.channels (ch.getD "*") ++ [h])))
      else m.channels ++ [(ch.getD "*", [h])] := by
  simp only [mAdd]
  by_cases hmem : h ∈ m.handlers
  · rw [if_pos (List.elem_iff.mpr hmem)]
    by_cases hkey : hasKeyL m.channels (ch.getD "*")
    · rw [if_pos hkey, if_pos hkey]
      by_cases hb : h ∈ assocGet m.channels (ch.getD "*")
      · rw [if_pos (List.elem_iff.mpr hb), if_pos hb]
      · rw [if_neg (fun hc => hb (List.elem_iff.mp hc)), if_neg hb]
    · rw [if_neg hkey, if_neg hkey]
  · rw [if_neg (fun hc => hmem (List.elem_iff.mp hc))]
    by_cases hkey : hasKeyL m.channels (ch.getD "*")
    · rw [if_pos hkey, if_pos hkey]
      by_cases hb : h ∈ assocGet m.channels (ch.getD "*")
      · rw [if_pos (List.elem_iff.mpr hb), if_pos hb]
      · rw [if_neg (fun hc => hb (List.elem_iff.mp hc)), if_neg hb]
    · rw [if_neg hkey, if_neg hkey]

theorem sortByType_single (h : Handler) : sortByType [h] = [h] := by
  cases ht : h.type <;> simp [sortByType, isFilterH, isListenerH, List.filter, ht]

theorem assocGet_mAdd (m : Manager) (h : Handler) (ch : Option String) (k : String) :
    assocGet (mAdd m h ch).channels k =
      if k = ch.getD "*" then
        (if h ∈ assocGet m.channels k then assocGet m.channels k
         else sortByType (assocGet m.channels k ++ [h]))
      else assocGet m.channels k := by
  rw [mAdd_channels]
  by_cases hkey : hasKeyL m.channels (ch.getD "*")
  · rw [if_pos hkey]
    by_cases hb : h ∈ assocGet m.channels (ch.getD "*")
    · rw [if_pos hb]
      by_cases hk : k = ch.getD "*"
      · rw [hk]
        simp [hb]
      · simp [hk]
    · rw [if_neg hb, assocGet_assocSet]
      by_cases hk : k = ch.getD "*"
      · rw [hk]
        simp [hb]
      · simp [hk]
  · rw [if_neg hkey, assocGet_append]
    have hget : assocGet m.channels (ch.getD "*") = [] :=
      hasKeyL_false_assocGet (by simpa using hkey)
    by_cases hk : k = ch.getD "*"
    · rw [hk]
      simp [hkey, hget, assocGet, sortByType_single]
    · by_cases hkk : hasKeyL m.channels k
      · simp [hkk, hk]
      · simp [hkk, hk, assocGet, hasKeyL_false_assocGet (by simpa using hkk),
          show ¬ ch.getD "*" = k from fun hh => hk hh.symm]

theorem mAdd_queue (m : Manager) (h : Handler) (ch : Option String) :
    (mAdd m h ch).queue = m.queue := by
  simp only [mAdd]
  split <;> split <;> first | rfl | (split <;> rfl)

/-! ### Partitioned buckets: sorting and erasing -/

theorem isFilterH_of_type {h : Handler} (ht : h.type = HType.filter) :
    isFilterH h = true := by simp [isFilterH, ht]

theorem isListenerH_of_type {h : Handler} (ht : h.type = HType.listener) :
    isListenerH h = true := by simp [isListenerH, ht]

/-- Re-sorting a partitioned bucket with one new element appended inserts
the new element at the end of its kind. -/
theorem sortByType_append_one (F L : List Handler) (h : Handler)
    (hF : ∀ x ∈ F, x.type = HType.filter) (hL : ∀ x ∈ L, x.type = HType.listener) :
    sortByType (F ++ L ++ [h]) =
      match h.type with
      | HType.filter => F ++ [h] ++ L
      | HType.listener => F ++ L ++ [h] := by
  have hFf : F.filter isFilterH = F :=
    List.filter_eq_self.mpr (fun x hx => isFilterH_of_type (hF x hx))
  have hFl : F.filter isListenerH = [] :=
    List.filter_eq_nil_iff.mpr (fun x hx => by simp [isListenerH, hF x hx])
  have hLf : L.filter isFilterH = [] :=
    List.filter_eq_nil_iff.mpr (fun x hx => by simp [isFilterH, hL x hx])
  have hLl : L.filter isListenerH = L :=
    List.filter_eq_self.mpr (fun x hx => isListenerH_of_type (hL x hx))
  cases ht : h.type with
  | filter =>
    simp [sortByType, List.filter_append, hFf, hFl, hLf, hLl, List.filter,
      isFilterH, isListenerH, ht]
  | listener =>
    simp [sortByType, List.filter_append, hFf, hFl, hLf, hLl, List.filter,
      isFilterH, isListenerH, ht]

/-- Erasing from a partitioned bucket erases on both sides (the handler can
belong to at most one side, having a single kind). -/
theorem erase_partition (F L : List Handler) (h : Handler)
    (hF : ∀ x ∈ F, x.type = HType.filter) (hL : ∀ x ∈ L, x.type = HType.listener) :
    (F ++ L).erase h = F.erase h ++ L.erase h := by
  by_cases hmF : h ∈ F
  · have hhf : h.type = HType.filter := hF h hmF
    have hnL : h ∉ L := fun hm => by
      rw [hL h hm] at hhf
      exact absurd hhf (by simp)
    rw [List.erase_append_left _ hmF, List.erase_of_not_mem hnL]
  · rw [List.erase_append_right _ hmF, List.erase_of_not_mem hmF]

/-- Erasing the same element twice is erasing it once, when it occurs at
most once. -/
theorem erase_twice_of_nodup (l : List Handler) (h : Handler) (hnd : l.Nodup) :
    (l.erase h).erase h = l.erase h :=
  List.erase_of_not_mem (hnd.not_mem_erase)

/-! ### C5 — the filters-before-listeners bucket invariant -/

/-- The handler index refines a per-key pair (filters, listeners): each
bucket is the filter part followed by the listener part, kinds are as
stated, and no bucket holds a handler twice. -/
def BucketInv (m : Manager) (f : String → List Handler × List Handler) : Prop :=
  ∀ k, assocGet m.channels k = (f k).1 ++ (f k).2
    ∧ (∀ x ∈ (f k).1, x.type = HType.filter)
    ∧ (∀ x ∈ (f k).2, x.type = HType.listener)
    ∧ ((f k).1 ++ (f k).2).Nodup

theorem bucketInv_step (m : Manager) (f : String → List Handler × List Handler)
    (hinv : BucketInv m f) (op : MOp) :
    BucketInv (applyOp m op) (fun k => specBucketStep k (f k) op) := by
  intro k
  obtain ⟨heq, hfs, hls, hnd⟩ := hinv k
  cases op with
  | add h ch =>
    show assocGet (mAdd m h ch).channels k = _ ∧ _
    rw [assocGet_mAdd]
    simp only [specBucketStep]
    by_cases hk : k = ch.getD "*"
    · rw [if_pos hk, if_pos hk.symm, heq]
      by_cases hmem : h ∈ (f k).1 ++ (f k).2
      · rw [if_pos hmem, if_pos hmem]
        exact ⟨rfl, hfs, hls, hnd⟩
      · rw [if_neg hmem, if_neg hmem]
        rw [show (f k).1 ++ (f k).2 ++ [h]
            = (f k).1 ++ ((f k).2 ++ [h]) from by simp] at *
        rw [show (f k).1 ++ ((f k).2 ++ [h])
            = (f k).1 ++ (f k).2 ++ [h] from by simp]
        rw [sortByType_append_one (f k).1 (f k).2 h hfs hls]
        cases ht : h.type with
        | filter =>
          refine ⟨by simp, ?_, hls, ?_⟩
          · intro x hx
            rcases List.mem_append.mp hx with hx | hx
            · exact hfs x hx
            · rw [List.mem_singleton.mp hx]
              exact ht
          · rw [show ((f k).1 ++ [h]) ++ (f k).2 = (f k).1 ++ h :: (f k).2 from by simp]
            rw [List.nodup_middle, List.nodup_cons]
            exact ⟨hmem, hnd⟩
        | listener =>
          refine ⟨by simp, hfs, ?_, ?_⟩
          · intro x hx
            rcases List.mem_append.mp hx with hx | hx
            · exact hls x hx
            · rw [List.mem_singleton.mp hx]
              exact ht
          · rw [show (f k).1 ++ ((f k).2 ++ [h]) = ((f k).1 ++ (f k).2) ++ h :: [] from by simp]
            rw [List.nodup_middle, List.nodup_cons]
            exact ⟨by simpa using hmem, by simpa using hnd⟩
    · rw [if_neg hk, if_neg (fun hh => hk hh.symm)]
      exact ⟨heq, hfs, hls, hnd⟩
  | rem h ch =>
    have hnd2 : ((f k).1.erase h ++ (f k).2.erase h).Nodup :=
      hnd.sublist (List.Sublist.append (List.erase_sublist h (f k).1) (List.erase_sublist h (f k).2))
    have hfs2 : ∀ x ∈ (f k).1.erase h, x.type = HType.filter :=
      fun x hx => hfs x (List.mem_of_mem_erase hx)
    have hls2 : ∀ x ∈ (f k).2.erase h, x.type = HType.listener :=
      fun x hx => hls x (List.mem_of_mem_erase hx)
    cases ch with
    | some c =>
      show assocGet (mRemove m h (some c)).channels k = _ ∧ _
      rw [mRemove_some_assocGet]
      simp only [specBucketStep]
      by_cases hk : k = c
      · rw [if_pos hk, if_pos hk.symm, heq, erase_partition _ _ _ hfs hls]
        exact ⟨rfl, hfs2, hls2, hnd2⟩
      · rw [if_neg hk, if_neg (fun hh => hk hh.symm)]
        exact ⟨heq, hfs, hls, hnd⟩
    | none =>
      show assocGet (mRemove m h none).channels k = _ ∧ _
      rw [mRemove_none_assocGet]
      simp only [specBucketStep]
      by_cases hk : k = "*"
      · rw [if_pos hk, heq, erase_twice_of_nodup _ _ (heq ▸ hnd),
          erase_partition _ _ _ hfs hls]
        exact ⟨rfl, hfs2, hls2, hnd2⟩
      · rw [if_neg hk, heq, erase_partition _ _ _ hfs hls]
        exact ⟨rfl, hfs2, hls2, hnd2⟩

theorem bucketInv_fold (ops : List MOp) (m : Manager)
    (f : String → List Handler × List Handler) (hinv : BucketInv m f) :
    BucketInv (ops.foldl applyOp m) (fun k => ops.foldl (specBucketStep k) (f k)) := by
  induction ops generalizing m f with
  | nil => exact hinv
  | cons op rest ih => exact ih (applyOp m op) _ (bucketInv_step m f hinv op)

/-- C5: after any sequence of `_add` / `_remove` steps on a fresh manager,
every bucket is exactly its filters (in insertion order) followed by its
listeners (in insertion order), as computed by the spec-side per-bucket
fold `specBuckets`; in particular every filter descriptor precedes every
listener descriptor in every bucket. -/
theorem C5_filters_precede_listeners (ops : List MOp) (k : String) :
    assocGet (applyOps ops).channels k
      = (specBuckets ops k).1 ++ (specBuckets ops k).2
    ∧ (∀ x ∈ (specBuckets ops k).1, x.type = HType.filter)
    ∧ (∀ x ∈ (specBuckets ops k).2, x.type = HType.listener) := by
  have h0 : BucketInv emptyManager (fun _ => ([], [])) := by
    intro j
    exact ⟨rfl, by simp, by simp, List.nodup_nil⟩
  have hmain := bucketInv_fold ops emptyManager _ h0 k
  exact ⟨hmain.1, hmain.2.1, hmain.2.2.1⟩

/-! ### C8 — attach then detach restores the index -/

theorem partition_filter_decomp {b F L : List Handler} (hb : b = F ++ L)
    (hF : ∀ x ∈ F, x.type = HType.filter) (hL : ∀ x ∈ L, x.type = HType.listener) :
    b.filter isFilterH = F ∧ b.filter isListenerH = L := by
  subst hb
  constructor
  · rw [List.filter_append,
      List.filter_eq_self.mpr (fun x hx => isFilterH_of_type (hF x hx)),
      List.filter_eq_nil_iff.mpr (fun x hx => by simp [isFilterH, hL x hx])]
    simp
  · rw [List.filter_append,
      List.filter_eq_nil_iff.mpr (fun x hx => by simp [isListenerH, hF x hx]),
      List.filter_eq_self.mpr (fun x hx => isListenerH_of_type (hL x hx))]
    simp

/-- Folding single erasures of the elements of `T` over a list made of a
kept part `A ++ B` (disjoint from `T`) with new parts `N` and `M`
interleaved (all from `T`, jointly duplicate-free) removes exactly the new
parts. -/
theorem foldl_erase_restore (T : List Handler) :
    ∀ (A N B M : List Handler),
    (∀ t ∈ T, t ∉ A ∧ t ∉ B) →
    (∀ x ∈ N, x ∈ T) → (∀ x ∈ M, x ∈ T) →
    (N ++ M).Nodup →
    T.foldl (fun b t => b.erase t) (A ++ N ++ B ++ M) = A ++ B := by
  induction T with
  | nil =>
    intro A N B M hT hN hM hnd
    have hN0 : N = [] := by
      cases N with
      | nil => rfl
      | cons x xs => exact absurd (hN x (by simp)) (by simp)
    have hM0 : M = [] := by
      cases M with
      | nil => rfl
      | cons x xs => exact absurd (hM x (by simp)) (by simp)
    simp [hN0, hM0]
  | cons t T' ih =>
    intro A N B M hT hN hM hnd
    have htA : t ∉ A := (hT t (by simp)).1
    have htB : t ∉ B := (hT t (by simp)).2
    simp only [List.foldl_cons]
    by_cases htN : t ∈ N
    · have hstep : (A ++ N ++ B ++ M).erase t = A ++ N.erase t ++ B ++ M := by
        rw [show A ++ N ++ B ++ M = A ++ (N ++ (B ++ M)) from by simp,
          List.erase_append_right _ htA,
          List.erase_append_left _ htN]
        simp
      rw [hstep]
      refine ih A (N.erase t) B M (fun x hx => ⟨(hT x (by simp [hx])).1, (hT x (by simp [hx])).2⟩)
        (fun x hx => ?_) (fun x hx => ?_) ?_
      · have hxN : x ∈ N := List.mem_of_mem_erase hx
        have hxT := hN x hxN
        have hxne : x ≠ t := by
          have hndN : N.Nodup := (List.nodup_append.mp hnd).1
          exact (hndN.mem_erase_iff.mp hx).1
        simpa [hxne] using hxT
      · have hxT := hM x hx
        have hxne : x ≠ t := by
          intro hh
          subst hh
          exact (List.disjoint_of_nodup_append hnd htN) hx
        simpa [hxne] using hxT
      · exact hnd.sublist (List.Sublist.append (List.erase_sublist t N) (List.Sublist.refl M))
    · by_cases htM : t ∈ M
      · have hstep : (A ++ N ++ B ++ M).erase t = A ++ N ++ B ++ M.erase t := by
          rw [show A ++ N ++ B ++ M = A ++ (N ++ (B ++ M)) from by simp,
            List.erase_append_right _ htA,
            List.erase_append_right _ htN,
            List.erase_append_right _ htB]
          simp
        rw [hstep]
        refine ih A N B (M.erase t) (fun x hx => hT x (by simp [hx]))
          (fun x hx => ?_) (fun x hx => ?_) ?_
        · have hxT := hN x hx
          have hxne : x ≠ t := by
            intro hh
            subst hh
            exact htN hx
          simpa [hxne] using hxT
        · have hxM : x ∈ M := List.mem_of_mem_erase hx
          have hxT := hM x hxM
          have hxne : x ≠ t := by
            have hndM : M.Nodup := (List.nodup_append.mp hnd).2.1
            exact (hndM.mem_erase_iff.mp hx).1
          simpa [hxne] using hxT
        · exact hnd.sublist (List.Sublist.append (List.Sublist.refl N) (List.erase_sublist t M))
      · have htout : t ∉ A ++ N ++ B ++ M := by
          simp only [List.mem_append, not_or]
          exact ⟨⟨⟨htA, htN⟩, htB⟩, htM⟩
        rw [List.erase_of_not_mem htout]
        refine ih A N B M (fun x hx => hT x (by simp [hx])) (fun x hx => ?_) (fun x hx => ?_) hnd
        · have hxT := hN x hx
          have hxne : x ≠ t := by
            intro hh
            subst hh
            exact htN hx
          simpa [hxne] using hxT
        · have hxT := hM x hx
          have hxne : x ≠ t := by
            intro hh
            subst hh
            exact htM hx
          simpa [hxne] using hxT

/-- When every element of `T` occurs at most once, the doubled erase that
`_remove(handler)` performs on the `"*"` bucket coincides with a single
erase. -/
theorem foldl_erase2_eq (T : List Handler) :
    ∀ (b : List Handler), (∀ t ∈ T, b.count t ≤ 1) →
    T.foldl (fun b t => (b.erase t).erase t) b = T.foldl (fun b t => b.erase t) b := by
  induction T with
  | nil => intro b _; rfl
  | cons t T' ih =>
    intro b hc
    have h1 : b.count t ≤ 1 := hc t (by simp)
    have h2 : t ∉ b.erase t := by
      rw [← List.count_eq_zero, List.count_erase_self]
      omega
    simp only [List.foldl_cons]
    rw [List.erase_of_not_mem h2]
    exact ih (b.erase t) (fun x hx =>
      le_trans (List.Sublist.count_le (List.erase_sublist t b) x) (hc x (by simp [hx])))

theorem remFold_assocGet (T : List Handler) :
    ∀ (m : Manager) (k : String),
    assocGet ((T.foldl (fun m h => mRemove m h none) m)).channels k
      = T.foldl (fun b h => if k = "*" then (b.erase h).erase h else b.erase h)
          (assocGet m.channels k) := by
  induction T with
  | nil => intro m k; rfl
  | cons t T' ih =>
    intro m k
    simp only [List.foldl_cons]
    rw [ih, mRemove_none_assocGet]

theorem remFold_handlers (T : List Handler) :
    ∀ (m : Manager),
    ((T.foldl (fun m h => mRemove m h none) m)).handlers
      = T.foldl (fun l h => l.erase h) m.handlers := by
  induction T with
  | nil => intro m; rfl
  | cons t T' ih =>
    intro m
    simp only [List.foldl_cons]
    rw [ih, mRemove_none_handlers]

theorem type_of_isFilterH {h : Handler} (hh : isFilterH h = true) :
    h.type = HType.filter := by
  cases ht : h.type
  · rfl
  · rw [isFilterH, ht] at hh
    simp at hh

theorem type_of_isListenerH {h : Handler} (hh : isListenerH h = true) :
    h.type = HType.listener := by
  cases ht : h.type
  · rw [isListenerH, ht] at hh
    simp at hh
  · rfl

/-- Mid-registration state: the parent's handler set is its old set plus a
duplicate-free batch of the component's handlers, and every bucket is its
old filters, then newly added filters, then its old listeners, then newly
added listeners. -/
def AddMid (m0 mid : Manager) (T : List Handler) : Prop :=
  (∃ hNew, mid.handlers = m0.handlers ++ hNew
    ∧ (∀ x ∈ hNew, x ∈ T) ∧ hNew.Nodup)
  ∧ ∀ k, ∃ fN lN,
      assocGet mid.channels k
        = (assocGet m0.channels k).filter isFilterH ++ fN
          ++ (assocGet m0.channels k).filter isListenerH ++ lN
      ∧ (∀ x ∈ fN, x.type = HType.filter ∧ x ∈ T)
      ∧ (∀ x ∈ lN, x.type = HType.listener ∧ x ∈ T)
      ∧ (fN ++ lN).Nodup

theorem addMid_step (m0 mid : Manager) (T : List Handler) (h : Handler) (key : String)
    (hmid : AddMid m0 mid T) (hT : h ∈ T) :
    AddMid m0 (mAdd mid h (some key)) T := by
  obtain ⟨⟨hNew, hhs, hhsT, hhnd⟩, hbk⟩ := hmid
  constructor
  · rw [mAdd_handlers]
    by_cases hmem : h ∈ mid.handlers
    · exact ⟨hNew, by rw [if_pos hmem]; exact hhs, hhsT, hhnd⟩
    · refine ⟨hNew ++ [h], ?_, ?_, ?_⟩
      · rw [if_neg hmem, hhs]
        simp
      · intro x hx
        rcases List.mem_append.mp hx with hx | hx
        · exact hhsT x hx
        · rw [List.mem_singleton.mp hx]
          exact hT
      · have hhn : h ∉ hNew := fun hc => hmem (by rw [hhs]; simp [hc])
        rw [show hNew ++ [h] = hNew ++ h :: [] from rfl, List.nodup_middle,
          List.nodup_cons]
        simpa using ⟨hhn, hhnd⟩
  · intro k
    obtain ⟨fN, lN, hbeq, hfN, hlN, hndN⟩ := hbk k
    rw [assocGet_mAdd]
    simp only [Option.getD_some]
    by_cases hk : k = key
    · rw [if_pos hk]
      by_cases hbmem : h ∈ assocGet mid.channels k
      · exact ⟨fN, lN, by rw [if_pos hbmem]; exact hbeq, hfN, hlN, hndN⟩
      · rw [if_neg hbmem, hbeq]
        set F0 := (assocGet m0.channels k).filter isFilterH with hF0
        set L0 := (assocGet m0.channels k).filter isListenerH with hL0
        have hFall : ∀ x ∈ F0 ++ fN, x.type = HType.filter := by
          intro x hx
          rcases List.mem_append.mp hx with hx | hx
          · exact type_of_isFilterH (List.of_mem_filter hx)
          · exact (hfN x hx).1
        have hLall : ∀ x ∈ L0 ++ lN, x.type = HType.listener := by
          intro x hx
          rcases List.mem_append.mp hx with hx | hx
          · exact type_of_isListenerH (List.of_mem_filter hx)
          · exact (hlN x hx).1
        have hre : F0 ++ fN ++ L0 ++ lN ++ [h] = (F0 ++ fN) ++ (L0 ++ lN) ++ [h] := by
          simp
        rw [hre, sortByType_append_one (F0 ++ fN) (L0 ++ lN) h hFall hLall]
        have hhfl : h ∉ fN ++ lN := by
          intro hc
          apply hbmem
          rw [hbeq]
          rcases List.mem_append.mp hc with hc | hc <;> simp [hc]
        cases ht : h.type with
        | filter =>
          refine ⟨fN ++ [h], lN, by simp, ?_, hlN, ?_⟩
          · intro x hx
            rcases List.mem_append.mp hx with hx | hx
            · exact hfN x hx
            · rw [List.mem_singleton.mp hx]
              exact ⟨ht, hT⟩
          · rw [show fN ++ [h] ++ lN = fN ++ h :: lN from by simp, List.nodup_middle,
              List.nodup_cons]
            exact ⟨hhfl, hndN⟩
        | listener =>
          refine ⟨fN, lN ++ [h], by simp, hfN, ?_, ?_⟩
          · intro x hx
            rcases List.mem_append.mp hx with hx | hx
            · exact hlN x hx
            · rw [List.mem_singleton.mp hx]
              exact ⟨ht, hT⟩
          · rw [show fN ++ (lN ++ [h]) = (fN ++ lN) ++ h :: [] from by simp,
              List.nodup_middle, List.nodup_cons]
            exact ⟨by simpa using hhfl, by simpa using hndN⟩
    · rw [if_neg hk]
      exact ⟨fN, lN, hbeq, hfN, hlN, hndN⟩

theorem addFold_mid (pairs : List (Handler × String)) (T : List Handler)
    (hp : ∀ p ∈ pairs, p.1 ∈ T) :
    ∀ (mid : Manager) (m0 : Manager), AddMid m0 mid T →
    AddMid m0 (pairs.foldl (fun m p => mAdd m p.1 (some p.2)) mid) T := by
  induction pairs with
  | nil => intro mid m0 hmid; exact hmid
  | cons p rest ih =>
    intro mid m0 hmid
    simp only [List.foldl_cons]
    exact ih (fun q hq => hp q (by simp [hq])) _ m0
      (addMid_step m0 mid T p.1 p.2 hmid (hp p (by simp)))

/-- C8: attaching a component (`register`) and then detaching it
(`unregister`) restores the parent's handler index — every bucket, read
through the defaultdict, and the `_handlers` set — provided no handler
tracked by the component was independently registered with the parent, the
parent's buckets satisfy the filters-before-listeners shape (true of every
reachable manager, see `C5_filters_precede_listeners`), the component's
discovered methods are among its tracked handlers (as the self-registration
in `__init__` guarantees), and the tracked set is duplicate-free. -/
theorem C8_attach_detach (c : Component) (m : Manager)
    (hpart : ∀ k, ∃ F L, assocGet m.channels k = F ++ L
        ∧ (∀ x ∈ F, x.type = HType.filter) ∧ (∀ x ∈ L, x.type = HType.listener))
    (habs : ∀ h ∈ c.tracked, h ∉ m.handlers ∧ ∀ k, h ∉ assocGet m.channels k)
    (hsub : ∀ h ∈ c.methods, h ∈ c.tracked)
    (hnd : c.tracked.Nodup) :
    (∀ k, assocGet (unregisterEffect c (registerEffect c m)).channels k
        = assocGet m.channels k)
    ∧ (unregisterEffect c (registerEffect c m)).handlers = m.handlers := by
  have hdecomp : ∀ k, assocGet m.channels k
      = (assocGet m.channels k).filter isFilterH
        ++ (assocGet m.channels k).filter isListenerH := by
    intro k
    obtain ⟨F, L, hFL, hF, hL⟩ := hpart k
    obtain ⟨hf, hl⟩ := partition_filter_decomp hFL hF hL
    rw [hf, hl, hFL]
  have hpairs : ∀ p ∈ registerPairs c, p.1 ∈ c.tracked := by
    intro p hp
    unfold registerPairs at hp
    obtain ⟨h, hh, hp2⟩ := List.mem_flatMap.mp hp
    obtain ⟨kk, _, hpk⟩ := List.mem_map.mp hp2
    rw [← hpk]
    exact hsub h hh
  have hmid0 : AddMid m m c.tracked := by
    refine ⟨⟨[], by simp, by simp, List.nodup_nil⟩, fun k => ⟨[], [], ?_, by simp, by simp, List.nodup_nil⟩⟩
    simpa using hdecomp k
  have hmid1 : AddMid m
      ((registerPairs c).foldl (fun m p => mAdd m p.1 (some p.2)) m) c.tracked :=
    addFold_mid (registerPairs c) c.tracked hpairs m m hmid0
  obtain ⟨⟨hNew, hhs, hhsT, hhnd⟩, hbk⟩ := hmid1
  have hreg_ch : (registerEffect c m).channels
      = ((registerPairs c).foldl (fun m p => mAdd m p.1 (some p.2)) m).channels := rfl
  have hreg_hs : (registerEffect c m).handlers
      = ((registerPairs c).foldl (fun m p => mAdd m p.1 (some p.2)) m).handlers := rfl
  constructor
  · intro k
    have hstep : assocGet (unregisterEffect c (registerEffect c m)).channels k
        = c.tracked.foldl (fun b h => if k = "*" then (b.erase h).erase h else b.erase h)
            (assocGet (registerEffect c m).channels k) :=
      remFold_assocGet c.tracked (registerEffect c m) k
    obtain ⟨fN, lN, hbeq, hfN, hlN, hndN⟩ := hbk k
    have hbeq2 : assocGet (registerEffect c m).channels k
        = (assocGet m.channels k).filter isFilterH ++ fN
          ++ (assocGet m.channels k).filter isListenerH ++ lN := by
      rw [hreg_ch]
      exact hbeq
    have hTout : ∀ t ∈ c.tracked,
        t ∉ (assocGet m.channels k).filter isFilterH
        ∧ t ∉ (assocGet m.channels k).filter isListenerH := by
      intro t ht
      have := (habs t ht).2 k
      exact ⟨fun hc => this (List.mem_of_mem_filter hc),
        fun hc => this (List.mem_of_mem_filter hc)⟩
    have hrestore :
        c.tracked.foldl (fun b h => b.erase h)
          ((assocGet m.channels k).filter isFilterH ++ fN
            ++ (assocGet m.channels k).filter isListenerH ++ lN)
        = (assocGet m.channels k).filter isFilterH
          ++ (assocGet m.channels k).filter isListenerH :=
      foldl_erase_restore c.tracked _ fN _ lN hTout
        (fun x hx => (hfN x hx).2) (fun x hx => (hlN x hx).2) hndN
    rw [hstep, hbeq2]
    by_cases hk : k = "*"
    · subst hk
      have hcount : ∀ t ∈ c.tracked,
          ((assocGet m.channels "*").filter isFilterH ++ fN
            ++ (assocGet m.channels "*").filter isListenerH ++ lN).count t ≤ 1 := by
        intro t ht
        have h1 : ((assocGet m.channels "*").filter isFilterH).count t = 0 :=
          List.count_eq_zero.mpr (hTout t ht).1
        have h2 : ((assocGet m.channels "*").filter isListenerH).count t = 0 :=
          List.count_eq_zero.mpr (hTout t ht).2
        have h3 : (fN ++ lN).count t ≤ 1 := List.nodup_iff_count_le_one.mp hndN t
        rw [List.count_append] at h3
        simp only [List.count_append, h1, h2]
        omega
      have he2 : c.tracked.foldl
            (fun b h => if "*" = "*" then (b.erase h).erase h else b.erase h)
            ((assocGet m.channels "*").filter isFilterH ++ fN
              ++ (assocGet m.channels "*").filter isListenerH ++ lN)
          = c.tracked.foldl (fun b h => b.erase h)
            ((assocGet m.channels "*").filter isFilterH ++ fN
              ++ (assocGet m.channels "*").filter isListenerH ++ lN) := by
        simp only [eq_self_iff_true, if_true]
        exact foldl_erase2_eq c.tracked _ hcount
      rw [he2, hrestore, ← hdecomp]
    · simp only [hk, if_false]
      rw [hrestore, ← hdecomp]
  · have hstep : (unregisterEffect c (registerEffect c m)).handlers
        = c.tracked.foldl (fun l h => l.erase h) (registerEffect c m).handlers :=
      remFold_handlers c.tracked (registerEffect c m)
    rw [hstep, hreg_hs, hhs]
    have hTout : ∀ t ∈ c.tracked, t ∉ m.handlers ∧ t ∉ ([] : List Handler) := by
      intro t ht
      exact ⟨(habs t ht).1, by simp⟩
    have := foldl_erase_restore c.tracked m.handlers hNew [] [] hTout
      hhsT (by simp) (by simpa using hhnd)
    simpa using this

/-- A component on channel `"comp"` with a single listener method, tracked
by its own handler set (as after self-registration in `__init__`). -/
def compC8 : Component := ⟨1, some "comp", [fixL 10], [fixL 10], false⟩

/-- A manager with one pre-existing filter under `"x"`. -/
def mgrC8 : Manager := mAdd emptyManager (fixF 0) (some "x")

/-- Witness for C8 at a concrete component and manager: attach then detach
leaves the `"x"` bucket, the bucket the component registered into, and the
handler set as they were. -/
theorem C8_witness :
    assocGet (unregisterEffect compC8 (registerEffect compC8 mgrC8)).channels "x"
      = assocGet mgrC8.channels "x"
    ∧ assocGet (unregisterEffect compC8 (registerEffect compC8 mgrC8)).channels "comp:*"
      = assocGet mgrC8.channels "comp:*"
    ∧ (unregisterEffect compC8 (registerEffect compC8 mgrC8)).handlers = mgrC8.handlers := by
  have hch : mgrC8.channels = [("x", [fixF 0])] := by decide
  have hpart : ∀ k, ∃ F L, assocGet mgrC8.channels k = F ++ L
      ∧ (∀ x ∈ F, x.type = HType.filter) ∧ (∀ x ∈ L, x.type = HType.listener) := by
    intro k
    rw [hch]
    by_cases hk : ("x" : String) = k
    · refine ⟨[fixF 0], [], by simp [assocGet, hk], ?_, by simp⟩
      intro x hx
      rw [List.mem_singleton.mp hx]
      rfl
    · exact ⟨[], [], by simp [assocGet, hk], by simp, by simp⟩
  have habs : ∀ h ∈ compC8.tracked, h ∉ mgrC8.handlers ∧ ∀ k, h ∉ assocGet mgrC8.channels k := by
    intro h hh
    have hh10 : h = fixL 10 := by
      have : h ∈ [fixL 10] := hh
      simpa using this
    subst hh10
    exact ⟨by decide, not_mem_assocGet_of_forall (by decide)⟩
  have hmain := C8_attach_detach compC8 mgrC8 hpart habs (by decide) (by decide)
  exact ⟨hmain.1 "x", hmain.1 "comp:*", hmain.2⟩

/-- A concrete op sequence: add a listener, add a filter to the same
bucket, remove the listener everywhere. -/
def opsC5 : List MOp :=
  [MOp.add (fixL 20) (some "x"), MOp.add (fixF 21) (some "x"), MOp.rem (fixL 20) none]

/-- Witness for C5 at a concrete op sequence and bucket. -/
theorem C5_witness :
    assocGet (applyOps opsC5).channels "x"
      = (specBuckets opsC5 "x").1 ++ (specBuckets opsC5 "x").2 :=
  (C5_filters_precede_listeners opsC5 "x").1
